import Mathlib

/-
Verification of the ci-dashboard repository (package cmd: github.go, show.go).

Shallow embedding conventions used throughout this file:
  * Go strings are modelled as List Char.  Go compares strings byte-wise over
    UTF-8; for valid UTF-8 this order coincides with code-point order, which is
    the order on Char used here.
  * Timestamps and float64 second counts are modelled as exact rationals (Q).
    Where Go converts a float64 to a time.Duration (an int64 count), the
    conversion truncates toward zero; truncQ below models that truncation.
  * Go maps with string keys are modelled as association lists updated in
    insertion order; mapGet / mapPut / mapInc model lookup, assignment and the
    "count, ok := m[k]" increment idiom from show.go.
  * The remote GitHub API is modelled as the sequence of page responses it
    returns: each request yields either a RemoteError (Except.error) or a page
    of records together with the "is there a next page" bit (res.NextPage != 0).
  * The worker pools in show.go consume a channel of items and write to the
    shared result under one mutex.  A completed execution therefore inserts
    results in some interleaving-dependent order; the dispatcher theorems
    quantify over every insertion order (every permutation of the processed
    items), which covers every schedule for every worker count.
-/

/-- Truncation of a rational toward zero, as Go does when converting a float64
to an integer type (for example time.Duration(totalSeconds/float64(success))
in show.go). -/
def truncQ (q : ℚ) : Int :=
  if 0 ≤ q.num then ((q.num.toNat / q.den : Nat) : Int)
  else -(((-q.num).toNat / q.den : Nat) : Int)

/-- Lookup in an association-list model of a Go map. -/
def mapGet {K V : Type} [DecidableEq K] : List (K × V) → K → Option V
  | [], _ => none
  | (k', v') :: rest, k => if k = k' then some v' else mapGet rest k

/-- Assignment m[k] = v in an association-list model of a Go map: overwrites
the existing entry for k, or appends a new entry. -/
def mapPut {K V : Type} [DecidableEq K] : List (K × V) → K → V → List (K × V)
  | [], k, v => [(k, v)]
  | (k', v') :: rest, k, v =>
    if k = k' then (k, v) :: rest else (k', v') :: mapPut rest k v

/-- The "count, ok := m[k]; if ok { m[k] = count + 1 } else { m[k] = 1 }"
idiom used by show.go for every frequency table. -/
def mapInc {K : Type} [DecidableEq K] (m : List (K × Nat)) (k : K) : List (K × Nat) :=
  match mapGet m k with
  | some c => mapPut m k (c + 1)
  | none => mapPut m k 1

/-- Folding mapInc over a list of keys: one Go loop body per key. -/
def mapBump {K : Type} [DecidableEq K] (m : List (K × Nat)) (ks : List K) : List (K × Nat) :=
  ks.foldl mapInc m

/-- Does the pattern occur as a prefix of the text? (Both as Char lists.) -/
def leadsWith : List Char → List Char → Bool
  | [], _ => true
  | _ :: _, [] => false
  | p :: ps, c :: cs => p = c && leadsWith ps cs

/-- Number of positions of the text at which the pattern occurs.  Used only to
state that a log body "contains" a marker a given number of times. -/
def countSub (pat l : List Char) : Nat :=
  ((List.range (l.length + 1)).filter (fun i => leadsWith pat (l.drop i))).length

/-- Lexicographic order on Char lists; this is the order Go's slices.Sort uses
on strings (byte order of UTF-8, which agrees with code-point order). -/
def lexLe : List Char → List Char → Bool
  | [], _ => true
  | _ :: _, [] => false
  | a :: as, b :: bs => if a < b then true else if b < a then false else lexLe as bs

/-- lexLe as a Prop relation, for use with List.insertionSort. -/
def lexLeP (a b : List Char) : Prop := lexLe a b = true

instance : DecidableRel lexLeP := fun a b => by
  unfold lexLeP; infer_instance

/-- One step of the insertion sort used by Go's slices.SortFunc on short
slices: the new element bubbles left past its predecessor exactly while
cmp(new, predecessor) < 0.  The accumulated prefix is kept reversed
(most recent position first). -/
def insertR {α : Type} (cmp : α → α → Int) (x : α) : List α → List α
  | [] => [x]
  | y :: ys => if cmp x y < 0 then y :: insertR cmp x ys else x :: y :: ys

/-- slices.SortFunc modelled as the insertion sort Go itself runs for ranges
of at most 12 elements (pdqsort's maxInsertion threshold).  For longer inputs
Go's pdqsort promises a comparator-sorted output only when the comparator is
a strict weak ordering; under a comparator whose induced equivalence is not
transitive (such as the truncating success-rate comparator below) it
guarantees only some permutation, so the rate-ranking theorem restricts
itself to inputs on which this model coincides with Go's algorithm, while the
duration-ranking conclusion is derived from comparator-sortedness alone,
which any contract-compliant output provides. -/
def goSortFunc {α : Type} (cmp : α → α → Int) (l : List α) : List α :=
  (l.foldl (fun acc x => insertR cmp x acc) []).reverse

/- ------------------------------------------------------------------ -/
/- Data model (section 3 of the spec, fields as read by show.go).      -/
/- ------------------------------------------------------------------ -/

/-- A workflow run record, with the three fields the dashboard reads:
GetConclusion(), GetRunStartedAt() and GetUpdatedAt().  Timestamps are in
seconds, as exact rationals. -/
structure RunRec where
  conclusion : List Char
  runStartedAt : ℚ
  updatedAt : ℚ
deriving DecidableEq

/-- One page of the ListWorkflowRunsByFileName response: the run records plus
whether res.NextPage was nonzero. -/
structure RunsPage where
  runs : List RunRec
  hasNext : Bool
deriving DecidableEq

/-- A workflow record as read by getWorkflows: only GetPath() is used. -/
structure WorkflowRec where
  path : List Char
deriving DecidableEq

/-- One page of the ListWorkflows response. -/
structure WfPage where
  workflows : List WorkflowRec
  hasNext : Bool
deriving DecidableEq

/-- A job step: name and conclusion (show.go reads nothing else). -/
structure StepRec where
  name : List Char
  conclusion : List Char
deriving DecidableEq

/-- A workflow job as consumed by printDetailedDashboard.  logsURL models the
result of client.Actions.GetWorkflowJobLogs for this job: some url when the
call succeeded, none when it returned an error.  URLs are identified by Nat
tags; only equality and collection membership matter. -/
structure JobRec where
  name : List Char
  conclusion : List Char
  logsURL : Option Nat
  steps : List StepRec
deriving DecidableEq

/-- A run as consumed by printDetailedDashboard: its conclusion, and the
outcome of the getJobs fetch for its ID (jobs plus optional RemoteError; on
error the worker logs and skips the run, discarding the partial job list). -/
structure RunDetail where
  conclusion : List Char
  jobs : List JobRec
  jobsErr : Option Unit
deriving DecidableEq

/-- The per-workflow statistics record built by printSummary (show.go
workflowStats).  successRate is 100*success/count; averageDuration is the
time.Duration value in nanoseconds.  The from/to display strings are
presentation-only and omitted. -/
structure WorkflowStats where
  workflow : List Char
  averageDuration : Int
  successRate : ℚ
  success : Nat
  count : Nat
deriving DecidableEq

/-- The query options github.go's getWorkflowRuns sends to
ListWorkflowRunsByFileName.  The Created field exists on the API options
struct and carries the ">=<RFC3339>" minimum-start-time filter when set; the
code in src/cmd/github.go (lines 34-38) sets only Branch and Event, so Created
keeps its zero value. -/
structure ListWorkflowRunsOptions where
  branch : List Char
  event : List Char
  created : List Char
deriving DecidableEq

/- ------------------------------------------------------------------ -/
/- github.go: the three paged fetchers.                                -/
/- ------------------------------------------------------------------ -/

/-- Go's path.Base: returns the last element of the path after stripping
trailing slashes; "." for the empty string; "/" if the path is all slashes. -/
def pathBase (p : List Char) : List Char :=
  if p = [] then ['.']
  else
    let q := (p.reverse.dropWhile (fun c => c = '/')).reverse
    if q = [] then ['/']
    else (q.reverse.takeWhile (fun c => ¬ (c = '/'))).reverse

/-- getWorkflows (github.go lines 11-31), folded over the page responses the
remote source returns.  On any page error the function returns nil together
with the error, discarding the pages accumulated so far; on success it returns
the base names of all collected workflow paths sorted ascending (slices.Sort).
The accumulator is the workflows slice. -/
def getWorkflows : List (Except Unit WfPage) → List WorkflowRec → List (List Char) × Option Unit
  | [], acc => (List.insertionSort lexLeP (acc.map (fun w => pathBase w.path)), none)
  | Except.error e :: _, _ => ([], some e)
  | Except.ok pg :: rest, acc =>
    let acc2 := acc ++ pg.workflows
    if pg.hasNext then getWorkflows rest acc2
    else (List.insertionSort lexLeP (acc2.map (fun w => pathBase w.path)), none)

/-- The workflow records of the pages getWorkflows actually consumes before
the remote source signals no further pages. -/
def wfCollected : List (Except Unit WfPage) → List WorkflowRec
  | [] => []
  | Except.error _ :: _ => []
  | Except.ok pg :: rest => pg.workflows ++ (if pg.hasNext then wfCollected rest else [])

/-- The conclusion filter applied by getWorkflowRuns (github.go line 46): only
runs that concluded success or failure are admitted. -/
def admissible (r : RunRec) : Bool :=
  r.conclusion == "success".toList || r.conclusion == "failure".toList

/-- getWorkflowRuns (github.go lines 33-59), folded over the page responses.
Result: the collected run records, the error if one occurred (paired with the
records accumulated before it, untruncated, as the source does at line 43),
and the number of page requests that were issued.  On a normal exit the
accumulated list is truncated to count records when it is longer (lines
55-58).  An empty response list stands for a source that is never consulted
further; it takes the normal exit. -/
def getWorkflowRuns (count : Int) : List (Except Unit RunsPage) → List RunRec → List RunRec × Option Unit × Nat
  | [], acc =>
    (if (acc.length : Int) > count then acc.take count.toNat else acc, none, 0)
  | Except.error e :: _, acc => (acc, some e, 1)
  | Except.ok pg :: rest, acc =>
    let acc2 := acc ++ pg.runs.filter admissible
    if pg.hasNext = false ∨ count ≤ (acc2.length : Int) then
      (if (acc2.length : Int) > count then acc2.take count.toNat else acc2, none, 1)
    else
      let r := getWorkflowRuns count rest acc2
      (r.1, r.2.1, r.2.2 + 1)

/-- The admissible (success/failure) records of the first k pages of a
response stream, in stream order; error pages contribute nothing. -/
def admThrough (pages : List (Except Unit RunsPage)) (k : Nat) : List RunRec :=
  (pages.take k).flatMap (fun p =>
    match p with
    | Except.ok pg => pg.runs.filter admissible
    | Except.error _ => [])

/-- getJobs (github.go lines 61-78), folded over the page responses.  On a
page error it returns the jobs accumulated so far paired with the error; it
has no record cap. -/
def getJobs : List (Except Unit (List JobRec × Bool)) → List JobRec → List JobRec × Option Unit
  | [], acc => (acc, none)
  | Except.error e :: _, acc => (acc, some e)
  | Except.ok (jobs, hasNext) :: rest, acc =>
    let acc2 := acc ++ jobs
    if hasNext then getJobs rest acc2 else (acc2, none)

/-- The options value getWorkflowRuns constructs for the remote query
(github.go lines 34-38): Branch and Event are set from the caller's
parameters; no other filter field is assigned, so the Created (minimum start
time) filter keeps its zero value. -/
def mkRunsOptions (branch event : List Char) : ListWorkflowRunsOptions :=
  { branch := branch, event := event, created := [] }

/- ------------------------------------------------------------------ -/
/- show.go: printDashboard window structure and statistics.            -/
/- ------------------------------------------------------------------ -/

/-- The window-size loop of printDashboard (show.go line 228):
"for ; len(runs) >= count; count *= 2".  n is len(runs).  The 1 <= count
conjunct reflects that printDashboard returns before the loop when the run
list is empty, so the loop is only entered with count = min(len(runs), 4) >= 1
and doubling keeps the counter positive.  The fuel argument only bounds the
iteration count so the recursion is structural; windowSizes supplies n + 1,
which the theorems below show is never exhausted (the counter at least
doubles each step while staying at most n). -/
def windowSizesGo (n : Nat) : Nat → Nat → List Nat
  | _, 0 => []
  | count, fuel + 1 =>
    if 1 ≤ count ∧ count ≤ n then count :: windowSizesGo n (2 * count) fuel else []

/-- The sequence of window sizes printDashboard iterates over for a run list
of length n: the counter starts at min(len(runs), 4) (show.go line 217). -/
def windowSizes (n : Nat) : List Nat :=
  windowSizesGo n (min n 4) (n + 1)

/-- The runs a window of the given size covers: printDashboard indexes
runs[i] for i = 0 .. count-1 (show.go lines 229-237). -/
def windowAt (runs : List RunRec) (count : Nat) : List RunRec :=
  (List.range count).filterMap (fun i => runs[i]?)

/-- All windows printDashboard produces for a run list. -/
def printDashboardWindows (runs : List RunRec) : List (List RunRec) :=
  (windowSizes runs.length).map (windowAt runs)

/-- The statistics loop shared by printDashboard (show.go lines 231-238) and
printSummary (show.go lines 157-164): walks the window accumulating the
success count and the total duration seconds of successful runs. -/
def statsLoop (w : List RunRec) : Nat × ℚ :=
  w.foldl
    (fun acc r =>
      if r.conclusion = "success".toList then (acc.1 + 1, acc.2 + (r.updatedAt - r.runStartedAt))
      else acc)
    (0, 0)

/-- The successful runs of a window, in order. -/
def successRuns (w : List RunRec) : List RunRec :=
  w.filter (fun r => r.conclusion == "success".toList)

/-- Total duration (in seconds) of the successful runs of a window. -/
def totalSecs (w : List RunRec) : ℚ :=
  ((successRuns w).map (fun r => r.updatedAt - r.runStartedAt)).sum

/-- The average-duration cell printDashboard prints for a window (show.go
lines 239-242): "N/A" (none) when totalSeconds == 0, otherwise
time.Second * time.Duration(totalSeconds/float64(success)) — the mean of the
successful runs' durations truncated toward zero to whole seconds.  The value
carried is that whole number of seconds as a rational. -/
def avgDurationReport (w : List RunRec) : Option ℚ :=
  let s := statsLoop w
  if s.2 ≠ 0 then some ((truncQ (s.2 / (s.1 : ℚ)) : ℚ)) else none

/-- The success-rate cell for a window: 100 * float32(success)/float32(count)
(show.go line 243), idealized to exact rationals. -/
def successRatePercent (w : List RunRec) : ℚ :=
  (100 * ((statsLoop w).1 : ℚ)) / (w.length : ℚ)

/- ------------------------------------------------------------------ -/
/- show.go: printSummary statistics and ranking.                       -/
/- ------------------------------------------------------------------ -/

/-- The workflowStats record printSummary builds for one workflow with a
nonempty run list (show.go lines 154-173).  averageDuration is
time.Second * time.Duration(totalSeconds/float64(success)) in nanoseconds.
When success = 0 Go divides 0.0 by 0.0 and converts the resulting NaN to
int64, an implementation-specific value; the model puts 0 there (via the
division-by-zero convention of Q) and every theorem that reads
averageDuration assumes success >= 1. -/
def mkWorkflowStats (workflow : List Char) (runs : List RunRec) : WorkflowStats :=
  let s := statsLoop runs
  { workflow := workflow
    averageDuration := 1000000000 * truncQ (s.2 / (s.1 : ℚ))
    successRate := (100 * (s.1 : ℚ)) / (runs.length : ℚ)
    success := s.1
    count := runs.length }

/-- The statsList printSummary builds (show.go lines 149-175): workflows with
zero fetched runs are skipped.  The input list order models one iteration
order of the Go result map, which is unspecified; theorems quantify over it. -/
def printSummaryStats (result : List (List Char × List RunRec)) : List WorkflowStats :=
  (result.filter (fun p => ¬ p.2.isEmpty)).map (fun p => mkWorkflowStats p.1 p.2)

/-- The success-rate comparator of show.go lines 176-178:
int(a.successRate - b.successRate), a float32 difference truncated toward
zero. -/
def rateCmp (a b : WorkflowStats) : Int :=
  truncQ (a.successRate - b.successRate)

/-- The average-duration comparator of show.go lines 194-196:
int(b.averageDuration - a.averageDuration), an exact int64 difference. -/
def durCmp (a b : WorkflowStats) : Int :=
  b.averageDuration - a.averageDuration

/-- The rows of the success-rate summary table: statsList sorted ascending by
rateCmp, truncated to the top-N (show.go lines 176-192). -/
def successRateTable (result : List (List Char × List RunRec)) (top : Nat) : List WorkflowStats :=
  (goSortFunc rateCmp (printSummaryStats result)).take top

/-- The rows of the average-duration summary table: the rate-sorted list is
sorted again (in place) by durCmp and truncated to the top-N (show.go lines
194-208). -/
def durationTable (result : List (List Char × List RunRec)) (top : Nat) : List WorkflowStats :=
  (goSortFunc durCmp (goSortFunc rateCmp (printSummaryStats result))).take top

/- ------------------------------------------------------------------ -/
/- show.go: the worker pool dispatcher (showCmd lines 90-115).         -/
/- ------------------------------------------------------------------ -/

/-- The items whose work function returned without error, with their results,
in item order. -/
def dispatchSuccesses {K V : Type} (items : List K) (workFn : K → Option V) : List (K × V) :=
  items.filterMap (fun k => (workFn k).map (fun v => (k, v)))

/-- The shared result map after every worker has exited, given the order in
which the successful items' map writes were serialized by the mutex.  Every
schedule of every worker count produces some permutation of the successful
items as its write order, so the dispatcher theorems quantify over all
permutations. -/
def dispatchResult {K V : Type} [DecidableEq K] (order : List (K × V)) : List (K × V) :=
  order.foldl (fun m kv => mapPut m kv.1 kv.2) []

/- ------------------------------------------------------------------ -/
/- show.go: printDetailedDashboard (lines 260-320).                    -/
/- ------------------------------------------------------------------ -/

/-- The four accumulators of printDetailedDashboard. -/
structure DrillState where
  failedJobCount : List (List Char × Nat)
  failedStepCount : List (List Char × Nat)
  cancelledStepCount : List (List Char × Nat)
  logsURLs : List Nat
deriving DecidableEq

/-- The step loop of printDetailedDashboard (show.go lines 290-306): a failed
step bumps failedStepCount, a cancelled step bumps cancelledStepCount, any
other step touches neither map. -/
def stepLoop (ms : List (List Char × Nat) × List (List Char × Nat)) (steps : List StepRec) :
    List (List Char × Nat) × List (List Char × Nat) :=
  steps.foldl
    (fun ms st =>
      if st.conclusion = "failure".toList then (mapInc ms.1 st.name, ms.2)
      else if st.conclusion = "cancelled".toList then (ms.1, mapInc ms.2 st.name)
      else ms)
    ms

/-- The per-job body of printDetailedDashboard (show.go lines 277-309): only
jobs with conclusion failure are processed; the job's log URL is appended only
when GetWorkflowJobLogs succeeded, while the job name is counted in
failedJobCount regardless; then the step loop runs. -/
def processJob (s : DrillState) (job : JobRec) : DrillState :=
  if job.conclusion = "failure".toList then
    let urls := match job.logsURL with
      | some u => s.logsURLs ++ [u]
      | none => s.logsURLs
    let fjc := mapInc s.failedJobCount job.name
    let sc := stepLoop (s.failedStepCount, s.cancelledStepCount) job.steps
    ⟨fjc, sc.1, sc.2, urls⟩
  else s

/-- The per-run body: only runs with conclusion failure are enqueued (show.go
lines 314-318), and a run whose getJobs fetch errored is logged and skipped,
its partial job list discarded (lines 272-276). -/
def processRun (s : DrillState) (run : RunDetail) : DrillState :=
  if run.conclusion = "failure".toList ∧ run.jobsErr = none then
    run.jobs.foldl processJob s
  else s

/-- printDetailedDashboard's aggregation over a run list.  Worker
interleavings permute the order in which runs' jobs reach the mutex-guarded
critical section; the counting theorems below are stated through
order-insensitive characterizations. -/
def printDetailedDashboard (runs : List RunDetail) : DrillState :=
  runs.foldl processRun ⟨[], [], [], []⟩

/-- The jobs the drilldown classifies as failed: all jobs of the
failure-concluded runs whose job fetch succeeded, filtered to conclusion
failure. -/
def failureJobs (runs : List RunDetail) : List JobRec :=
  ((runs.filter (fun r => r.conclusion == "failure".toList && r.jobsErr.isNone)).flatMap
      (fun r => r.jobs)).filter
    (fun j => j.conclusion == "failure".toList)

/-- Presence-aware occurrence count: what a Go frequency map stores for a key
after one increment per occurrence — no entry when the key never occurred. -/
def natCountOpt {K : Type} [DecidableEq K] (l : List K) (k : K) : Option Nat :=
  if l.count k = 0 then none else some (l.count k)

/- ------------------------------------------------------------------ -/
/- show.go: analyzeLogs (lines 369-463).                               -/
/- ------------------------------------------------------------------ -/

/-- Splits a Char list at the last occurrence of "]:" — the greedy semantics
of the capture in the RE2 pattern backslash-escaped "Test [(.*)]:", whose dot
cannot cross a newline.  Returns (text before, text after) when "]:" occurs. -/
def splitLastBC : List Char → Option (List Char × List Char)
  | [] => none
  | [_] => none
  | a :: b :: rest =>
    match splitLastBC (b :: rest) with
    | some (pre, post) => some (a :: pre, post)
    | none => if a = ']' ∧ b = ':' then some ([], rest) else none

/-- The submatches of the pattern "Test [(.*)]:" within one line, leftmost
first.  The first literal "Test [" that is followed by a "]:" later in the
line yields a match whose greedy capture extends to the last "]:" of the
line; the text after that "]:" contains no further "]:" and hence no further
match, so a line yields at most one capture. -/
def testCaptures : List Char → List (List Char)
  | [] => []
  | c :: rest =>
    if leadsWith "Test [".toList (c :: rest) then
      match splitLastBC ((c :: rest).drop 6) with
      | some (cap, _) => [cap]
      | none => []
    else testCaptures rest

/-- All captures of the failed-test pattern in a log body, capped at 10000
matches (show.go lines 393-394).  Matches cannot cross lines, so the global
leftmost scan is the concatenation of the per-line scans. -/
def testCapturesBody (body : List Char) : List (List Char) :=
  ((body.splitOn '\n').flatMap testCaptures).take 10000

/-- The match of the pattern " level=error.*" within one line: from the first
occurrence of the marker to the end of the line.  A line yields at most one
match because the greedy tail consumes the rest of the line. -/
def levelErrorMatch : List Char → Option (List Char)
  | [] => none
  | c :: rest =>
    if leadsWith " level=error".toList (c :: rest) then some (c :: rest)
    else levelErrorMatch rest

/-- The errors slice of analyzeLogs for one body: all " level=error.*"
matches, capped at 10000 (show.go lines 410-416). -/
def levelErrorBody (body : List Char) : List (List Char) :=
  ((body.splitOn '\n').filterMap levelErrorMatch).take 10000

/-- The first submatch of msg="([^quote]+)" in an error line (show.go lines
441-443): the first quoted, nonempty msg payload.  An occurrence of the
literal msg=" whose payload would be empty or unterminated does not match and
scanning continues at the next position. -/
def msgCapture : List Char → Option (List Char)
  | [] => none
  | c :: rest =>
    if leadsWith "msg=\"".toList (c :: rest) then
      let after := (c :: rest).drop 5
      let payload := after.takeWhile (fun ch => ¬ (ch = '"'))
      if payload ≠ [] ∧ after.dropWhile (fun ch => ¬ (ch = '"')) ≠ [] then some payload
      else msgCapture rest
    else msgCapture rest

/-- The two frequency tables analyzeLogs derives from one log body: the
failed-test name counts and the error-message counts (an error line without a
msg payload contributes to neither). -/
def analyzeBody (body : List Char) : List (List Char × Nat) × List (List Char × Nat) :=
  (mapBump [] (testCapturesBody body),
   mapBump [] ((levelErrorBody body).filterMap msgCapture))

/-- Sample run with conclusion failure (concrete test vector). -/
def sampleFailRun : RunRec := ⟨"failure".toList, 0, 0⟩

/-- Sample run with conclusion success and zero duration (test vector). -/
def sampleSuccessRun : RunRec := ⟨"success".toList, 0, 0⟩

/-- A 200-run workflow history with exactly one success (rate 0.5%). -/
def sampleRunsA : List RunRec := List.replicate 199 sampleFailRun ++ [sampleSuccessRun]

/-- A one-run workflow history with no successes (rate 0%). -/
def sampleRunsB : List RunRec := [sampleFailRun]

/-- A two-workflow summary input whose success rates are 0.5% and 0%: the
comparator int(a.successRate - b.successRate) truncates their difference to
0, so slices.SortFunc may leave them in either order. -/
def sampleSummaryInput : List (List Char × List RunRec) :=
  [("a".toList, sampleRunsA), ("b".toList, sampleRunsB)]

/- ------------------------------------------------------------------ -/
/- Helper lemmas.                                                      -/
/- ------------------------------------------------------------------ -/

theorem truncQ_neg (q : ℚ) : truncQ (-q) = - truncQ q := by
  unfold truncQ
  rw [Rat.neg_num, Rat.neg_den]
  rcases lt_trichotomy q.num 0 with h | h | h
  · rw [if_pos (by omega), if_neg (by omega)]
    simp
  · rw [h]
    simp
  · rw [if_neg (by omega), if_pos (by omega)]
    simp

theorem truncQ_nonneg_iff (q : ℚ) : 0 ≤ truncQ q ↔ (-1 : ℚ) < q := by
  have hden : (0 : ℚ) < (q.den : ℚ) := by exact_mod_cast q.pos
  have hpos : 0 < q.den := q.pos
  have key : ((-1 : ℚ) < q) ↔ (-(q.den : Int) < q.num) := by
    constructor
    · intro h
      have h2 : (-1 : ℚ) * (q.den : ℚ) < (q.num : ℚ) := by
        rw [← Rat.num_div_den q] at h
        exact (lt_div_iff₀ hden).mp h
      have h3 : ((-(q.den : Int) : Int) : ℚ) < ((q.num : Int) : ℚ) := by
        push_cast
        linarith
      exact_mod_cast h3
    · intro h
      have h3 : ((-(q.den : Int) : Int) : ℚ) < ((q.num : Int) : ℚ) := by exact_mod_cast h
      rw [← Rat.num_div_den q, lt_div_iff₀ hden]
      push_cast at h3 ⊢
      linarith
  unfold truncQ
  rw [key]
  by_cases hn : 0 ≤ q.num
  · rw [if_pos hn]
    constructor
    · intro _
      omega
    · intro _
      exact Int.natCast_nonneg _
  · rw [if_neg hn]
    have htn : ((-q.num).toNat : Int) = -q.num := Int.toNat_of_nonneg (by omega)
    constructor
    · intro h
      have hc : (0 : Int) ≤ (((-q.num).toNat / q.den : Nat) : Int) := Int.natCast_nonneg _
      have h0 : ((-q.num).toNat / q.den : Nat) = 0 := by omega
      have hlt : (-q.num).toNat < q.den := by
        by_contra hge
        push_neg at hge
        have h1 : 1 ≤ (-q.num).toNat / q.den := (Nat.one_le_div_iff hpos).mpr hge
        omega
      omega
    · intro h
      have hlt : (-q.num).toNat < q.den := by omega
      rw [Nat.div_eq_of_lt hlt]
      simp

theorem mapGet_mapPut {K V : Type} [DecidableEq K] (m : List (K × V)) (k k' : K) (v : V) :
    mapGet (mapPut m k v) k' = if k' = k then some v else mapGet m k' := by
  induction m with
  | nil =>
    simp [mapPut, mapGet]
  | cons p rest ih =>
    obtain ⟨k0, v0⟩ := p
    by_cases h : k = k0
    · subst h
      by_cases hk : k' = k
      · subst hk
        simp [mapPut, mapGet]
      · simp [mapPut, mapGet, hk]
    · by_cases hk : k' = k0
      · subst hk
        simp [mapPut, mapGet, h, Ne.symm h]
      · simp [mapPut, mapGet, h, hk, ih]

theorem mapGet_mapInc {K : Type} [DecidableEq K] (m : List (K × Nat)) (k k' : K) :
    mapGet (mapInc m k) k' =
      if k' = k then some ((mapGet m k).getD 0 + 1) else mapGet m k' := by
  unfold mapInc
  cases h : mapGet m k with
  | none =>
    rw [mapGet_mapPut]
    simp
  | some c =>
    rw [mapGet_mapPut]
    simp

theorem mapGet_mapBump {K : Type} [DecidableEq K] (ks : List K) :
    ∀ (m : List (K × Nat)) (k : K),
      mapGet (mapBump m ks) k =
        if ks.count k = 0 then mapGet m k
        else some ((mapGet m k).getD 0 + ks.count k) := by
  induction ks with
  | nil =>
    intro m k
    simp [mapBump]
  | cons k0 ks ih =>
    intro m k
    have hstep : mapBump m (k0 :: ks) = mapBump (mapInc m k0) ks := rfl
    rw [hstep, ih, mapGet_mapInc]
    by_cases hk : k = k0
    · subst hk
      rw [if_pos rfl]
      rw [List.count_cons]
      simp only [beq_self_eq_true, if_true]
      by_cases h0 : ks.count k = 0
      · rw [h0]
        simp
      · rw [if_neg h0, if_neg (by omega)]
        cases mapGet m k with
        | none => simp; omega
        | some c => simp; omega
    · rw [if_neg hk]
      rw [List.count_cons]
      have hne : (k0 == k) = false := by
        simp [beq_iff_eq]
        exact fun hcon => hk hcon.symm
      rw [hne]
      simp

theorem mapGet_mapBump_nil (ks : List (List Char)) (k : List Char) :
    mapGet (mapBump [] ks) k = natCountOpt ks k := by
  rw [mapGet_mapBump]
  unfold natCountOpt
  simp only [mapGet, Option.getD_none, Nat.zero_add]

theorem statsLoop_eq (w : List RunRec) :
    statsLoop w = ((successRuns w).length, totalSecs w) := by
  suffices h : ∀ (a : Nat) (b : ℚ),
      w.foldl
        (fun acc r =>
          if r.conclusion = "success".toList then
            (acc.1 + 1, acc.2 + (r.updatedAt - r.runStartedAt))
          else acc)
        (a, b) = (a + (successRuns w).length, b + totalSecs w) by
    have h0 := h 0 0
    simpa [statsLoop] using h0
  induction w with
  | nil =>
    intro a b
    simp [successRuns, totalSecs]
  | cons r w ih =>
    intro a b
    simp only [List.foldl_cons]
    by_cases h : r.conclusion = "success".toList
    · rw [if_pos h, ih]
      have hb : (r.conclusion == "success".toList) = true := beq_iff_eq.mpr h
      have hf : successRuns (r :: w) = r :: successRuns w := by
        simp [successRuns, List.filter_cons, hb]
        exact h
      have ht : totalSecs (r :: w) = (r.updatedAt - r.runStartedAt) + totalSecs w := by
        rw [totalSecs, hf]
        simp [totalSecs]
      rw [hf, ht]
      rw [Prod.mk.injEq]
      constructor
      · simp
        omega
      · ring
    · rw [if_neg h, ih]
      have hb : (r.conclusion == "success".toList) = false := by
        rw [beq_eq_false_iff_ne]
        exact h
      have hf : successRuns (r :: w) = successRuns w := by
        simp [successRuns, List.filter_cons, hb]
        exact h
      have ht : totalSecs (r :: w) = totalSecs w := by
        rw [totalSecs, hf, totalSecs]
      rw [hf, ht]

theorem insertR_chain {α : Type} (cmp : α → α → Int)
    (hanti : ∀ a b, cmp a b < 0 → 0 ≤ cmp b a) (x : α) :
    ∀ acc, List.Chain' (fun a b => 0 ≤ cmp a b) acc →
      List.Chain' (fun a b => 0 ≤ cmp a b) (insertR cmp x acc) := by
  intro acc
  induction acc with
  | nil =>
    intro _
    simp [insertR]
  | cons y ys ih =>
    intro hch
    rw [insertR]
    by_cases h : cmp x y < 0
    · rw [if_pos h]
      rw [List.chain'_cons']
      refine ⟨?_, ih hch.tail⟩
      intro z hz
      cases ys with
      | nil =>
        simp [insertR] at hz
        subst hz
        exact hanti _ _ h
      | cons y2 ys2 =>
        rw [insertR] at hz
        by_cases h2 : cmp x y2 < 0
        · rw [if_pos h2] at hz
          simp at hz
          subst hz
          exact (List.chain'_cons.mp hch).1
        · rw [if_neg h2] at hz
          simp at hz
          subst hz
          exact hanti _ _ h
    · rw [if_neg h]
      rw [List.chain'_cons']
      refine ⟨?_, hch⟩
      intro z hz
      simp at hz
      subst hz
      omega

theorem goSortFunc_chain {α : Type} (cmp : α → α → Int)
    (hanti : ∀ a b, cmp a b < 0 → 0 ≤ cmp b a) (l : List α) :
    List.Chain' (fun u v => 0 ≤ cmp v u) (goSortFunc cmp l) := by
  unfold goSortFunc
  have hfold : ∀ (l : List α) (acc : List α),
      List.Chain' (fun a b => 0 ≤ cmp a b) acc →
      List.Chain' (fun a b => 0 ≤ cmp a b)
        (l.foldl (fun acc x => insertR cmp x acc) acc) := by
    intro l
    induction l with
    | nil => intro acc hacc; exact hacc
    | cons x xs ih =>
      intro acc hacc
      exact ih _ (insertR_chain cmp hanti x acc hacc)
  have hacc := hfold l [] (by simp)
  rw [List.chain'_reverse]
  exact hacc

theorem lexLe_total : ∀ a b : List Char, lexLe a b = true ∨ lexLe b a = true := by
  intro a
  induction a with
  | nil =>
    intro b
    left
    rfl
  | cons x xs ih =>
    intro b
    cases b with
    | nil =>
      right
      rfl
    | cons y ys =>
      rcases lt_trichotomy x y with h | h | h
      · left
        simp [lexLe, h]
      · subst h
        rcases ih ys with h2 | h2
        · left
          simp [lexLe, h2]
        · right
          simp [lexLe, h2]
      · right
        simp [lexLe, h]

theorem lexLe_trans :
    ∀ a b c : List Char, lexLe a b = true → lexLe b c = true → lexLe a c = true := by
  intro a
  induction a with
  | nil =>
    intro b c _ _
    rfl
  | cons x xs ih =>
    intro b c hab hbc
    cases b with
    | nil =>
      simp [lexLe] at hab
    | cons y ys =>
      cases c with
      | nil =>
        simp [lexLe] at hbc
      | cons z zs =>
        rcases lt_trichotomy x y with h1 | h1 | h1
        · rcases lt_trichotomy y z with h2 | h2 | h2
          · simp [lexLe, lt_trans h1 h2]
          · subst h2
            simp [lexLe, h1]
          · simp [lexLe, h2, not_lt_of_lt h2] at hbc
        · subst h1
          rcases lt_trichotomy x z with h2 | h2 | h2
          · simp [lexLe, h2]
          · subst h2
            simp [lexLe, lt_irrefl] at hab hbc ⊢
            exact ih _ _ hab hbc
          · simp [lexLe, h2, not_lt_of_lt h2] at hbc
        · simp [lexLe, h1, not_lt_of_lt h1] at hab

instance : IsTotal (List Char) lexLeP := ⟨lexLe_total⟩

instance : IsTrans (List Char) lexLeP := ⟨lexLe_trans⟩

theorem windowSizesGo_spec (n : Nat) :
    ∀ (fuel count : Nat), 1 ≤ count → count ≤ n → n + 1 ≤ fuel + count →
      (windowSizesGo n count fuel).head? = some count ∧
      List.Chain' (fun a b => b = 2 * a) (windowSizesGo n count fuel) ∧
      (∀ s ∈ windowSizesGo n count fuel, count ≤ s ∧ s ≤ n) ∧
      (∃ L, L ∈ windowSizesGo n count fuel ∧ L ≤ n ∧ n < 2 * L ∧
        ∀ s ∈ windowSizesGo n count fuel, s ≤ L) := by
  intro fuel
  induction fuel with
  | zero =>
    intro count h1 h2 hf
    omega
  | succ fuel ih =>
    intro count h1 h2 hf
    rw [windowSizesGo, if_pos ⟨h1, h2⟩]
    by_cases h : 2 * count ≤ n
    · obtain ⟨hh, hc, hb, L, hL, hLn, hL2, hmax⟩ := ih (2 * count) (by omega) h (by omega)
      refine ⟨rfl, ?_, ?_, ?_⟩
      · rw [List.chain'_cons']
        constructor
        · intro b hb2
          rw [hh] at hb2
          simp at hb2
          omega
        · exact hc
      · intro s hs
        rcases List.mem_cons.mp hs with hs | hs
        · omega
        · have := hb s hs
          omega
      · refine ⟨L, List.mem_cons_of_mem _ hL, hLn, hL2, ?_⟩
        intro s hs
        rcases List.mem_cons.mp hs with hs | hs
        · have := hb L hL
          omega
        · exact hmax s hs
    · have hrec : windowSizesGo n (2 * count) fuel = [] := by
        cases fuel with
        | zero => rfl
        | succ f =>
          rw [windowSizesGo, if_neg (by omega)]
      rw [hrec]
      refine ⟨rfl, by simp, ?_, count, by simp, h2, by omega, ?_⟩
      · intro s hs
        simp at hs
        omega
      · intro s hs
        simp at hs
        omega

theorem windowAt_eq_take (runs : List RunRec) :
    ∀ k, k ≤ runs.length → windowAt runs k = runs.take k := by
  intro k
  induction k with
  | zero =>
    intro _
    simp [windowAt]
  | succ k ih =>
    intro hk
    unfold windowAt
    rw [List.range_succ, List.filterMap_append]
    have h1 := ih (by omega)
    unfold windowAt at h1
    rw [h1, List.take_succ]
    have hget := List.getElem?_eq_getElem (show k < runs.length by omega)
    simp [hget]

theorem getWorkflowRuns_partial (cap : Int) (e : Unit) (rest : List (Except Unit RunsPage)) :
    ∀ (good : List RunsPage) (acc : List RunRec),
      (∀ pg ∈ good, pg.hasNext = true) →
      ((acc.length : Int) +
          ((good.flatMap (fun pg => pg.runs.filter admissible)).length : Int) < cap) →
      getWorkflowRuns cap (good.map Except.ok ++ Except.error e :: rest) acc =
        (acc ++ good.flatMap (fun pg => pg.runs.filter admissible), some e, good.length + 1) := by
  intro good
  induction good with
  | nil =>
    intro acc _ _
    simp [getWorkflowRuns]
  | cons pg good ih =>
    intro acc hn hlen
    have hnext : pg.hasNext = true := hn pg (List.mem_cons_self _ _)
    simp only [List.flatMap_cons, List.length_append] at hlen
    have hacc2 : ((acc ++ pg.runs.filter admissible).length : Int) < cap := by
      rw [List.length_append]
      push_cast at hlen ⊢
      omega
    simp only [List.map_cons, List.cons_append]
    rw [getWorkflowRuns]
    rw [if_neg (by
      push_neg
      constructor
      · rw [hnext]
        simp
      · omega)]
    rw [ih (acc ++ pg.runs.filter admissible)
      (fun p hp => hn p (List.mem_cons_of_mem _ hp))
      (by
        rw [List.length_append]
        push_cast at hlen ⊢
        omega)]
    simp [List.append_assoc]

theorem getJobs_partial (e : Unit) (rest : List (Except Unit (List JobRec × Bool))) :
    ∀ (good : List (List JobRec)) (acc : List JobRec),
      getJobs (good.map (fun js => Except.ok (js, true)) ++ Except.error e :: rest) acc =
        (acc ++ good.flatMap (fun js => js), some e) := by
  intro good
  induction good with
  | nil =>
    intro acc
    simp [getJobs]
  | cons js good ih =>
    intro acc
    simp only [List.map_cons, List.cons_append, List.flatMap_cons]
    rw [getJobs]
    simp only [if_pos rfl]
    rw [ih (acc ++ js)]
    simp [List.append_assoc]

theorem admissible_cases (r : RunRec) (h : admissible r = true) :
    r.conclusion = "success".toList ∨ r.conclusion = "failure".toList := by
  unfold admissible at h
  rcases Bool.or_eq_true_iff.mp h with h | h
  · left
    exact beq_iff_eq.mp h
  · right
    exact beq_iff_eq.mp h

theorem admThrough_zero (pages : List (Except Unit RunsPage)) : admThrough pages 0 = [] := by
  simp [admThrough]

theorem admThrough_cons_ok (pg : RunsPage) (rest : List (Except Unit RunsPage)) (k : Nat) :
    admThrough (Except.ok pg :: rest) (k + 1) = pg.runs.filter admissible ++ admThrough rest k := by
  simp [admThrough]

theorem getWorkflowRuns_go_spec (cap : Int) (hcap : 0 ≤ cap) :
    ∀ (pages : List (Except Unit RunsPage)) (acc : List RunRec),
      (acc.length : Int) ≤ cap →
      (∀ r ∈ acc, r.conclusion = "success".toList ∨ r.conclusion = "failure".toList) →
      (((getWorkflowRuns cap pages acc).1.length : Int) ≤ cap) ∧
      (∀ r ∈ (getWorkflowRuns cap pages acc).1,
        r.conclusion = "success".toList ∨ r.conclusion = "failure".toList) ∧
      (getWorkflowRuns cap pages acc).2.2 ≤ pages.length ∧
      (pages ≠ [] → 1 ≤ (getWorkflowRuns cap pages acc).2.2) ∧
      (∀ j, j + 1 < (getWorkflowRuns cap pages acc).2.2 →
        ∃ pg, pages[j]? = some (Except.ok pg) ∧ pg.hasNext = true ∧
          (acc.length : Int) + ((admThrough pages (j + 1)).length : Int) < cap) ∧
      ((getWorkflowRuns cap pages acc).2.1 = none →
        (getWorkflowRuns cap pages acc).1 =
          (acc ++ admThrough pages (getWorkflowRuns cap pages acc).2.2).take cap.toNat) ∧
      ((getWorkflowRuns cap pages acc).2.1 = none →
        (getWorkflowRuns cap pages acc).2.2 = pages.length ∨
        ∃ pg, pages[(getWorkflowRuns cap pages acc).2.2 - 1]? = some (Except.ok pg) ∧
          (pg.hasNext = false ∨
            cap ≤ (acc.length : Int) +
              ((admThrough pages (getWorkflowRuns cap pages acc).2.2).length : Int))) := by
  intro pages
  induction pages with
  | nil =>
    intro acc hacc hadm
    rw [getWorkflowRuns]
    rw [if_neg (by omega)]
    dsimp only
    refine ⟨hacc, hadm, le_refl _, ?_, ?_, ?_, ?_⟩
    · intro h
      exact absurd rfl h
    · intro j hj
      omega
    · intro _
      rw [admThrough_zero, List.append_nil]
      rw [List.take_of_length_le (by omega)]
    · intro _
      left
      rfl
  | cons p rest ih =>
    intro acc hacc hadm
    cases p with
    | error e =>
      rw [getWorkflowRuns]
      dsimp only
      refine ⟨hacc, hadm, by simp, fun _ => le_refl _, ?_, ?_, ?_⟩
      · intro j hj
        omega
      · intro h
        simp at h
      · intro h
        simp at h
    | ok pg =>
      by_cases hstop :
          pg.hasNext = false ∨ cap ≤ ((acc ++ pg.runs.filter admissible).length : Int)
      · rw [getWorkflowRuns, if_pos hstop]
        dsimp only
        have hmem2 : ∀ r ∈ acc ++ pg.runs.filter admissible,
            r.conclusion = "success".toList ∨ r.conclusion = "failure".toList := by
          intro r hr
          rcases List.mem_append.mp hr with hr | hr
          · exact hadm r hr
          · exact admissible_cases r (List.mem_filter.mp hr).2
        refine ⟨?_, ?_, by simp, fun _ => le_refl _, ?_, ?_, ?_⟩
        · by_cases hb : ((acc ++ pg.runs.filter admissible).length : Int) > cap
          · rw [if_pos hb]
            have hlt := List.length_take cap.toNat (acc ++ pg.runs.filter admissible)
            omega
          · rw [if_neg hb]
            omega
        · intro r hr
          by_cases hb : ((acc ++ pg.runs.filter admissible).length : Int) > cap
          · rw [if_pos hb] at hr
            exact hmem2 r ((List.take_sublist _ _).subset hr)
          · rw [if_neg hb] at hr
            exact hmem2 r hr
        · intro j hj
          omega
        · intro _
          rw [admThrough_cons_ok, admThrough_zero, List.append_nil]
          by_cases hb : ((acc ++ pg.runs.filter admissible).length : Int) > cap
          · rw [if_pos hb]
          · rw [if_neg hb]
            rw [List.take_of_length_le (by omega)]
        · intro _
          right
          refine ⟨pg, by simp, ?_⟩
          rcases hstop with h | h
          · left
            exact h
          · right
            rw [admThrough_cons_ok, admThrough_zero, List.append_nil]
            rw [List.length_append] at h
            push_cast at h ⊢
            omega
      · push_neg at hstop
        obtain ⟨hnext0, hlt⟩ := hstop
        have hnext : pg.hasNext = true := by
          cases h : pg.hasNext
          · exact absurd h hnext0
          · rfl
        have hmem2 : ∀ r ∈ acc ++ pg.runs.filter admissible,
            r.conclusion = "success".toList ∨ r.conclusion = "failure".toList := by
          intro r hr
          rcases List.mem_append.mp hr with hr | hr
          · exact hadm r hr
          · exact admissible_cases r (List.mem_filter.mp hr).2
        have hrw : getWorkflowRuns cap (Except.ok pg :: rest) acc =
            ((getWorkflowRuns cap rest (acc ++ pg.runs.filter admissible)).1,
             (getWorkflowRuns cap rest (acc ++ pg.runs.filter admissible)).2.1,
             (getWorkflowRuns cap rest (acc ++ pg.runs.filter admissible)).2.2 + 1) := by
          rw [getWorkflowRuns]
          rw [if_neg (by
            push_neg
            exact ⟨hnext0, hlt⟩)]
        obtain ⟨ih1, ih2, ih3, ih3b, ih4, ih5, ih6⟩ :=
          ih (acc ++ pg.runs.filter admissible) (le_of_lt hlt) hmem2
        rw [hrw]
        dsimp only
        refine ⟨ih1, ih2, by simp; omega, fun _ => by omega, ?_, ?_, ?_⟩
        · intro j hj
          cases j with
          | zero =>
            refine ⟨pg, by simp, hnext, ?_⟩
            rw [admThrough_cons_ok, admThrough_zero, List.append_nil]
            rw [List.length_append] at hlt
            push_cast at hlt ⊢
            omega
          | succ j =>
            have hj2 : j + 1 <
                (getWorkflowRuns cap rest (acc ++ pg.runs.filter admissible)).2.2 := by
              omega
            obtain ⟨pg2, hget, hn2, hcum⟩ := ih4 j hj2
            refine ⟨pg2, ?_, hn2, ?_⟩
            · rw [List.getElem?_cons_succ]
              exact hget
            · rw [admThrough_cons_ok, List.length_append]
              rw [List.length_append] at hcum
              push_cast at hcum ⊢
              omega
        · intro hnone
          have h5 := ih5 hnone
          rw [h5, admThrough_cons_ok, List.append_assoc]
        · intro hnone
          rcases ih6 hnone with h6 | h6
          · left
            simp
            omega
          · right
            obtain ⟨pg2, hget, hcond⟩ := h6
            have hpos : 1 ≤ (getWorkflowRuns cap rest (acc ++ pg.runs.filter admissible)).2.2 := by
              apply ih3b
              intro hnil
              rw [hnil] at hget
              simp at hget
            rw [Nat.add_sub_cancel]
            have hidx : (getWorkflowRuns cap rest (acc ++ pg.runs.filter admissible)).2.2 =
                ((getWorkflowRuns cap rest (acc ++ pg.runs.filter admissible)).2.2 - 1) + 1 := by
              omega
            refine ⟨pg2, ?_, ?_⟩
            · rw [hidx, List.getElem?_cons_succ]
              exact hget
            · rcases hcond with h | h
              · left
                exact h
              · right
                rw [admThrough_cons_ok, List.length_append]
                rw [List.length_append] at h
                push_cast at h ⊢
                omega

theorem mapPut_keys {K V : Type} [DecidableEq K] (k : K) (v : V) :
    ∀ m : List (K × V),
      (mapPut m k v).map Prod.fst =
        if k ∈ m.map Prod.fst then m.map Prod.fst else m.map Prod.fst ++ [k] := by
  intro m
  induction m with
  | nil =>
    simp [mapPut]
  | cons p rest ih =>
    obtain ⟨k0, v0⟩ := p
    by_cases h : k = k0
    · subst h
      simp [mapPut]
    · by_cases hm : k ∈ rest.map Prod.fst
      · have : k ∈ ((k0, v0) :: rest).map Prod.fst := by
          simp [hm]
        simp [mapPut, h, ih, hm, this]
      · have : k ∉ ((k0, v0) :: rest).map Prod.fst := by
          simp [hm, h]
        simp [mapPut, h, ih, hm, this]

theorem dispatchResult_keys {K V : Type} [DecidableEq K] :
    ∀ (order : List (K × V)) (m : List (K × V)),
      (order.map Prod.fst).Nodup →
      (∀ k ∈ order.map Prod.fst, k ∉ m.map Prod.fst) →
      ((order.foldl (fun m kv => mapPut m kv.1 kv.2) m).map Prod.fst) =
        m.map Prod.fst ++ order.map Prod.fst := by
  intro order
  induction order with
  | nil =>
    intro m _ _
    simp
  | cons kv order ih =>
    intro m hnd hdisj
    obtain ⟨k, v⟩ := kv
    simp only [List.foldl_cons]
    have hknotm : k ∉ m.map Prod.fst := hdisj k (by simp)
    have hkeys : (mapPut m k v).map Prod.fst = m.map Prod.fst ++ [k] := by
      rw [mapPut_keys, if_neg hknotm]
    have hnd2 : k ∉ order.map Prod.fst ∧ (order.map Prod.fst).Nodup := by
      rw [List.map_cons] at hnd
      exact List.nodup_cons.mp hnd
    rw [ih (mapPut m k v) hnd2.2 ?_]
    · rw [hkeys]
      simp
    · intro k2 hk2
      rw [hkeys]
      intro hmem
      rcases List.mem_append.mp hmem with hmem | hmem
      · exact hdisj k2 (by simp [hk2]) hmem
      · simp at hmem
        subst hmem
        exact hnd2.1 hk2

theorem dispatchSuccesses_keys_sublist {K V : Type} (workFn : K → Option V) :
    ∀ items : List K, ((dispatchSuccesses items workFn).map Prod.fst).Sublist items := by
  intro items
  induction items with
  | nil =>
    exact List.nil_sublist []
  | cons k items ih =>
    unfold dispatchSuccesses at ih ⊢
    rw [List.filterMap_cons]
    cases h : workFn k with
    | none =>
      exact ih.cons _
    | some v =>
      dsimp only [Option.map]
      rw [List.map_cons]
      exact ih.cons₂ _

theorem mapBump_append {K : Type} [DecidableEq K] (m : List (K × Nat)) (a b : List K) :
    mapBump m (a ++ b) = mapBump (mapBump m a) b :=
  List.foldl_append _ _ _ _

theorem stepLoop_eq (steps : List StepRec) :
    ∀ fsc csc : List (List Char × Nat),
      stepLoop (fsc, csc) steps =
        (mapBump fsc
          ((steps.filter (fun st => st.conclusion == "failure".toList)).map (fun st => st.name)),
         mapBump csc
          ((steps.filter (fun st => st.conclusion == "cancelled".toList)).map (fun st => st.name))) := by
  induction steps with
  | nil =>
    intro fsc csc
    rfl
  | cons st steps ih =>
    intro fsc csc
    have h0 : stepLoop (fsc, csc) (st :: steps) =
        stepLoop
          (if st.conclusion = "failure".toList then (mapInc fsc st.name, csc)
           else if st.conclusion = "cancelled".toList then (fsc, mapInc csc st.name)
           else (fsc, csc)) steps := rfl
    rw [h0]
    by_cases h1 : st.conclusion = "failure".toList
    · rw [if_pos h1]
      have hb1 : (st.conclusion == "failure".toList) = true := beq_iff_eq.mpr h1
      have hb2 : (st.conclusion == "cancelled".toList) = false := by
        rw [beq_eq_false_iff_ne]
        intro hcon
        rw [h1] at hcon
        exact absurd hcon (by decide)
      rw [ih]
      rw [List.filter_cons, List.filter_cons, hb1, hb2]
      simp only [if_true, if_false, Bool.false_eq_true]
      rw [List.map_cons]
      rfl
    · rw [if_neg h1]
      have hb1 : (st.conclusion == "failure".toList) = false := by
        rw [beq_eq_false_iff_ne]
        exact h1
      by_cases h2 : st.conclusion = "cancelled".toList
      · rw [if_pos h2]
        have hb2 : (st.conclusion == "cancelled".toList) = true := beq_iff_eq.mpr h2
        rw [ih]
        rw [List.filter_cons, List.filter_cons, hb1, hb2]
        simp only [if_true, if_false, Bool.false_eq_true]
        rw [List.map_cons]
        rfl
      · rw [if_neg h2]
        have hb2 : (st.conclusion == "cancelled".toList) = false := by
          rw [beq_eq_false_iff_ne]
          exact h2
        rw [ih]
        rw [List.filter_cons, List.filter_cons, hb1, hb2]
        simp only [if_false, Bool.false_eq_true]

theorem processJob_fjc (s : DrillState) (job : JobRec) :
    (processJob s job).failedJobCount =
      if job.conclusion = "failure".toList then mapInc s.failedJobCount job.name
      else s.failedJobCount := by
  by_cases h : job.conclusion = "failure".toList
  · unfold processJob
    rw [if_pos h, if_pos h]
  · unfold processJob
    rw [if_neg h, if_neg h]

theorem processJob_fsc (s : DrillState) (job : JobRec) :
    (processJob s job).failedStepCount =
      if job.conclusion = "failure".toList then
        mapBump s.failedStepCount
          ((job.steps.filter (fun st => st.conclusion == "failure".toList)).map
            (fun st => st.name))
      else s.failedStepCount := by
  by_cases h : job.conclusion = "failure".toList
  · unfold processJob
    rw [if_pos h, if_pos h]
    show (stepLoop (s.failedStepCount, s.cancelledStepCount) job.steps).1 = _
    rw [stepLoop_eq]
  · unfold processJob
    rw [if_neg h, if_neg h]

theorem processJob_csc (s : DrillState) (job : JobRec) :
    (processJob s job).cancelledStepCount =
      if job.conclusion = "failure".toList then
        mapBump s.cancelledStepCount
          ((job.steps.filter (fun st => st.conclusion == "cancelled".toList)).map
            (fun st => st.name))
      else s.cancelledStepCount := by
  by_cases h : job.conclusion = "failure".toList
  · unfold processJob
    rw [if_pos h, if_pos h]
    show (stepLoop (s.failedStepCount, s.cancelledStepCount) job.steps).2 = _
    rw [stepLoop_eq]
  · unfold processJob
    rw [if_neg h, if_neg h]

theorem processJob_urls (s : DrillState) (job : JobRec) :
    (processJob s job).logsURLs =
      if job.conclusion = "failure".toList then s.logsURLs ++ job.logsURL.toList
      else s.logsURLs := by
  by_cases h : job.conclusion = "failure".toList
  · unfold processJob
    rw [if_pos h, if_pos h]
    cases hu : job.logsURL with
    | none =>
      simp [hu]
    | some u =>
      simp [hu]
  · unfold processJob
    rw [if_neg h, if_neg h]

theorem foldJobs_fjc (jobs : List JobRec) :
    ∀ s : DrillState,
      (jobs.foldl processJob s).failedJobCount =
        mapBump s.failedJobCount
          ((jobs.filter (fun j => j.conclusion == "failure".toList)).map (fun j => j.name)) := by
  induction jobs with
  | nil =>
    intro s
    rfl
  | cons job jobs ih =>
    intro s
    rw [List.foldl_cons, ih, List.filter_cons]
    by_cases h : job.conclusion = "failure".toList
    · have hb : (job.conclusion == "failure".toList) = true := beq_iff_eq.mpr h
      rw [processJob_fjc, if_pos h, hb]
      simp only [if_true]
      rw [List.map_cons]
      rfl
    · have hb : (job.conclusion == "failure".toList) = false := by
        rw [beq_eq_false_iff_ne]
        exact h
      rw [processJob_fjc, if_neg h, hb]
      simp only [if_false, Bool.false_eq_true]

theorem foldJobs_fsc (jobs : List JobRec) :
    ∀ s : DrillState,
      (jobs.foldl processJob s).failedStepCount =
        mapBump s.failedStepCount
          ((((jobs.filter (fun j => j.conclusion == "failure".toList)).flatMap
              (fun j => j.steps)).filter
            (fun st => st.conclusion == "failure".toList)).map (fun st => st.name)) := by
  induction jobs with
  | nil =>
    intro s
    rfl
  | cons job jobs ih =>
    intro s
    rw [List.foldl_cons, ih, List.filter_cons]
    by_cases h : job.conclusion = "failure".toList
    · have hb : (job.conclusion == "failure".toList) = true := beq_iff_eq.mpr h
      rw [processJob_fsc, if_pos h, hb]
      simp only [if_true]
      rw [List.flatMap_cons, List.filter_append, List.map_append, mapBump_append]
    · have hb : (job.conclusion == "failure".toList) = false := by
        rw [beq_eq_false_iff_ne]
        exact h
      rw [processJob_fsc, if_neg h, hb]
      simp only [if_false, Bool.false_eq_true]

theorem foldJobs_csc (jobs : List JobRec) :
    ∀ s : DrillState,
      (jobs.foldl processJob s).cancelledStepCount =
        mapBump s.cancelledStepCount
          ((((jobs.filter (fun j => j.conclusion == "failure".toList)).flatMap
              (fun j => j.steps)).filter
            (fun st => st.conclusion == "cancelled".toList)).map (fun st => st.name)) := by
  induction jobs with
  | nil =>
    intro s
    rfl
  | cons job jobs ih =>
    intro s
    rw [List.foldl_cons, ih, List.filter_cons]
    by_cases h : job.conclusion = "failure".toList
    · have hb : (job.conclusion == "failure".toList) = true := beq_iff_eq.mpr h
      rw [processJob_csc, if_pos h, hb]
      simp only [if_true]
      rw [List.flatMap_cons, List.filter_append, List.map_append, mapBump_append]
    · have hb : (job.conclusion == "failure".toList) = false := by
        rw [beq_eq_false_iff_ne]
        exact h
      rw [processJob_csc, if_neg h, hb]
      simp only [if_false, Bool.false_eq_true]

theorem foldJobs_urls (jobs : List JobRec) :
    ∀ s : DrillState,
      (jobs.foldl processJob s).logsURLs =
        s.logsURLs ++
          (jobs.filter (fun j => j.conclusion == "failure".toList)).filterMap
            (fun j => j.logsURL) := by
  induction jobs with
  | nil =>
    intro s
    simp
  | cons job jobs ih =>
    intro s
    rw [List.foldl_cons, ih, List.filter_cons]
    by_cases h : job.conclusion = "failure".toList
    · have hb : (job.conclusion == "failure".toList) = true := beq_iff_eq.mpr h
      rw [processJob_urls, if_pos h, hb]
      simp only [if_true]
      rw [List.filterMap_cons]
      cases hu : job.logsURL with
      | none =>
        simp
      | some u =>
        simp
    · have hb : (job.conclusion == "failure".toList) = false := by
        rw [beq_eq_false_iff_ne]
        exact h
      rw [processJob_urls, if_neg h, hb]
      simp only [if_false, Bool.false_eq_true]

theorem failureJobs_cons (run : RunDetail) (runs : List RunDetail) :
    failureJobs (run :: runs) =
      (if run.conclusion = "failure".toList ∧ run.jobsErr = none then
        run.jobs.filter (fun j => j.conclusion == "failure".toList)
       else []) ++ failureJobs runs := by
  unfold failureJobs
  rw [List.filter_cons]
  by_cases h : run.conclusion = "failure".toList ∧ run.jobsErr = none
  · have hb : (run.conclusion == "failure".toList && run.jobsErr.isNone) = true := by
      rw [Bool.and_eq_true]
      constructor
      · exact beq_iff_eq.mpr h.1
      · rw [Option.isNone_iff_eq_none]
        exact h.2
    rw [hb]
    simp only [if_true]
    rw [if_pos h, List.flatMap_cons, List.filter_append]
  · have hb : (run.conclusion == "failure".toList && run.jobsErr.isNone) = false := by
      cases hval : (run.conclusion == "failure".toList && run.jobsErr.isNone) with
      | false => rfl
      | true =>
        rw [Bool.and_eq_true, beq_iff_eq, Option.isNone_iff_eq_none] at hval
        exact absurd hval h
    rw [hb]
    simp only [if_false, Bool.false_eq_true]
    rw [if_neg h]
    simp

theorem foldRuns_fjc (runs : List RunDetail) :
    ∀ s : DrillState,
      (runs.foldl processRun s).failedJobCount =
        mapBump s.failedJobCount ((failureJobs runs).map (fun j => j.name)) := by
  induction runs with
  | nil =>
    intro s
    rfl
  | cons run runs ih =>
    intro s
    rw [List.foldl_cons, ih, failureJobs_cons]
    by_cases h : run.conclusion = "failure".toList ∧ run.jobsErr = none
    · rw [if_pos h]
      have hpr : processRun s run = run.jobs.foldl processJob s := by
        unfold processRun
        rw [if_pos h]
      rw [hpr, foldJobs_fjc, List.map_append, mapBump_append]
    · rw [if_neg h]
      have hpr : processRun s run = s := by
        unfold processRun
        rw [if_neg h]
      rw [hpr]
      simp

theorem foldRuns_fsc (runs : List RunDetail) :
    ∀ s : DrillState,
      (runs.foldl processRun s).failedStepCount =
        mapBump s.failedStepCount
          ((((failureJobs runs).flatMap (fun j => j.steps)).filter
            (fun st => st.conclusion == "failure".toList)).map (fun st => st.name)) := by
  induction runs with
  | nil =>
    intro s
    rfl
  | cons run runs ih =>
    intro s
    rw [List.foldl_cons, ih, failureJobs_cons]
    by_cases h : run.conclusion = "failure".toList ∧ run.jobsErr = none
    · rw [if_pos h]
      have hpr : processRun s run = run.jobs.foldl processJob s := by
        unfold processRun
        rw [if_pos h]
      rw [hpr, foldJobs_fsc, List.flatMap_append, List.filter_append, List.map_append,
        mapBump_append]
    · rw [if_neg h]
      have hpr : processRun s run = s := by
        unfold processRun
        rw [if_neg h]
      rw [hpr]
      simp

theorem foldRuns_csc (runs : List RunDetail) :
    ∀ s : DrillState,
      (runs.foldl processRun s).cancelledStepCount =
        mapBump s.cancelledStepCount
          ((((failureJobs runs).flatMap (fun j => j.steps)).filter
            (fun st => st.conclusion == "cancelled".toList)).map (fun st => st.name)) := by
  induction runs with
  | nil =>
    intro s
    rfl
  | cons run runs ih =>
    intro s
    rw [List.foldl_cons, ih, failureJobs_cons]
    by_cases h : run.conclusion = "failure".toList ∧ run.jobsErr = none
    · rw [if_pos h]
      have hpr : processRun s run = run.jobs.foldl processJob s := by
        unfold processRun
        rw [if_pos h]
      rw [hpr, foldJobs_csc, List.flatMap_append, List.filter_append, List.map_append,
        mapBump_append]
    · rw [if_neg h]
      have hpr : processRun s run = s := by
        unfold processRun
        rw [if_neg h]
      rw [hpr]
      simp

theorem foldRuns_urls (runs : List RunDetail) :
    ∀ s : DrillState,
      (runs.foldl processRun s).logsURLs =
        s.logsURLs ++ (failureJobs runs).filterMap (fun j => j.logsURL) := by
  induction runs with
  | nil =>
    intro s
    simp [failureJobs]
  | cons run runs ih =>
    intro s
    rw [List.foldl_cons, ih, failureJobs_cons]
    by_cases h : run.conclusion = "failure".toList ∧ run.jobsErr = none
    · rw [if_pos h]
      have hpr : processRun s run = run.jobs.foldl processJob s := by
        unfold processRun
        rw [if_pos h]
      rw [hpr, foldJobs_urls, List.filterMap_append, List.append_assoc]
    · rw [if_neg h]
      have hpr : processRun s run = s := by
        unfold processRun
        rw [if_neg h]
      rw [hpr]
      simp

theorem getWorkflows_success :
    ∀ (pages : List (Except Unit WfPage)) (acc : List WorkflowRec) (res : List (List Char)),
      getWorkflows pages acc = (res, none) →
      res.Perm ((acc ++ wfCollected pages).map (fun w => pathBase w.path)) ∧
      List.Sorted lexLeP res := by
  intro pages
  induction pages with
  | nil =>
    intro acc res h
    rw [getWorkflows] at h
    have hres : res = List.insertionSort lexLeP (acc.map fun w => pathBase w.path) := by
      have h1 := congrArg Prod.fst h
      simpa using h1.symm
    subst hres
    constructor
    · have hperm := List.perm_insertionSort lexLeP (acc.map fun w => pathBase w.path)
      simpa [wfCollected] using hperm
    · exact List.sorted_insertionSort lexLeP _
  | cons p rest ih =>
    intro acc res h
    cases p with
    | error e =>
      rw [getWorkflows] at h
      have h2 := congrArg Prod.snd h
      simp at h2
    | ok pg =>
      rw [getWorkflows] at h
      by_cases hn : pg.hasNext = true
      · rw [if_pos hn] at h
        have hih := ih (acc ++ pg.workflows) res h
        have hcoll : wfCollected (Except.ok pg :: rest) = pg.workflows ++ wfCollected rest := by
          rw [wfCollected, if_pos hn]
        rw [hcoll]
        rw [← List.append_assoc]
        exact hih
      · rw [if_neg hn] at h
        have hres : res =
            List.insertionSort lexLeP ((acc ++ pg.workflows).map fun w => pathBase w.path) := by
          have h1 := congrArg Prod.fst h
          simpa using h1.symm
        subst hres
        have hcoll : wfCollected (Except.ok pg :: rest) = pg.workflows ++ [] := by
          rw [wfCollected, if_neg hn]
        rw [hcoll]
        constructor
        · have hperm :=
            List.perm_insertionSort lexLeP ((acc ++ pg.workflows).map fun w => pathBase w.path)
          simpa using hperm
        · exact List.sorted_insertionSort lexLeP _

/- ------------------------------------------------------------------ -/
/- Claim theorems.                                                     -/
/- ------------------------------------------------------------------ -/

/-- C1 (counterexample): for a run list of length 5 the dashboard produces a
single window of size 4, so the largest window does not equal totalRuns,
refuting the claim that the largest window always equals totalRuns. -/
theorem C1_counterexample :
    windowSizes 5 = [4] ∧
    printDashboardWindows (List.replicate 5 (⟨"failure".toList, 0, 60⟩ : RunRec)) =
      [List.replicate 4 (⟨"failure".toList, 0, 60⟩ : RunRec)] ∧
    (4 : Nat) ≠ 5 := by
  refine ⟨by decide, by decide, by decide⟩

/-- C1 (amended): for every run list of length totalRuns >= 1, printDashboard
produces windows whose sizes form a doubling sequence starting at
min(totalRuns, 4), each window is the prefix of the run list of that size,
and no window size exceeds totalRuns; the largest window size L satisfies
totalRuns < 2*L (so it covers more than half the runs, and it equals
totalRuns exactly when totalRuns is min(totalRuns, 4) times a power of two),
but it does not in general equal totalRuns. -/
theorem C1_window_structure (runs : List RunRec) (h1 : 1 ≤ runs.length) :
    (windowSizes runs.length).head? = some (min runs.length 4) ∧
    List.Chain' (fun a b => b = 2 * a) (windowSizes runs.length) ∧
    (∀ s ∈ windowSizes runs.length, s ≤ runs.length) ∧
    (∃ L, L ∈ windowSizes runs.length ∧ L ≤ runs.length ∧ runs.length < 2 * L ∧
      ∀ s ∈ windowSizes runs.length, s ≤ L) ∧
    printDashboardWindows runs = (windowSizes runs.length).map (fun k => runs.take k) := by
  obtain ⟨hh, hc, hb, L, hL, hLn, hL2, hmax⟩ :=
    windowSizesGo_spec runs.length (runs.length + 1) (min runs.length 4)
      (by omega) (by omega) (by omega)
  refine ⟨hh, hc, fun s hs => (hb s hs).2, ⟨L, hL, hLn, hL2, hmax⟩, ?_⟩
  unfold printDashboardWindows
  apply List.map_congr_left
  intro k hk
  exact windowAt_eq_take runs k (hb k hk).2

/-- C1 (witness): the amended window-structure theorem instantiated on a
concrete six-run list. -/
theorem C1_window_structure_witness :
    (windowSizes (List.replicate 6 (⟨"failure".toList, 0, 60⟩ : RunRec)).length).head? =
      some (min (List.replicate 6 (⟨"failure".toList, 0, 60⟩ : RunRec)).length 4) :=
  (C1_window_structure (List.replicate 6 (⟨"failure".toList, 0, 60⟩ : RunRec)) (by decide)).1

/-- C2 (counterexample): a window holding one successful run of zero duration
is reported as N/A although its success count is 1 (refuting the
unavailable-iff-zero-successes direction), and a window of two successful
runs of 1s and 2s is reported as 1s although the arithmetic mean is 3/2s
(refuting the reported-value-equals-the-mean part: the mean is truncated to
whole seconds). -/
theorem C2_counterexample :
    (successRuns [(⟨"success".toList, 5, 5⟩ : RunRec)]).length = 1 ∧
    avgDurationReport [(⟨"success".toList, 5, 5⟩ : RunRec)] = none ∧
    avgDurationReport
      [(⟨"success".toList, 0, 1⟩ : RunRec), (⟨"success".toList, 0, 2⟩ : RunRec)] = some 1 ∧
    totalSecs [(⟨"success".toList, 0, 1⟩ : RunRec), (⟨"success".toList, 0, 2⟩ : RunRec)] /
        ((successRuns
          [(⟨"success".toList, 0, 1⟩ : RunRec), (⟨"success".toList, 0, 2⟩ : RunRec)]).length : ℚ) =
      3 / 2 ∧
    (1 : ℚ) ≠ 3 / 2 := by
  have hts1 : totalSecs [(⟨"success".toList, 5, 5⟩ : RunRec)] = 0 := by
    have hsr : successRuns [(⟨"success".toList, 5, 5⟩ : RunRec)] =
        [(⟨"success".toList, 5, 5⟩ : RunRec)] := by decide
    unfold totalSecs
    rw [hsr]
    simp
  have hts2 : totalSecs
      [(⟨"success".toList, 0, 1⟩ : RunRec), (⟨"success".toList, 0, 2⟩ : RunRec)] = 3 := by
    have hsr : successRuns
        [(⟨"success".toList, 0, 1⟩ : RunRec), (⟨"success".toList, 0, 2⟩ : RunRec)] =
        [(⟨"success".toList, 0, 1⟩ : RunRec), (⟨"success".toList, 0, 2⟩ : RunRec)] := by decide
    unfold totalSecs
    rw [hsr]
    norm_num
  have hlen1 : (successRuns [(⟨"success".toList, 5, 5⟩ : RunRec)]).length = 1 := by decide
  have hlen2 : (successRuns
      [(⟨"success".toList, 0, 1⟩ : RunRec), (⟨"success".toList, 0, 2⟩ : RunRec)]).length = 2 := by
    decide
  refine ⟨hlen1, ?_, ?_, ?_, by norm_num⟩
  · unfold avgDurationReport
    rw [statsLoop_eq]
    dsimp only
    rw [hts1]
    simp
  · unfold avgDurationReport
    rw [statsLoop_eq]
    dsimp only
    rw [hts2, hlen2]
    norm_num [truncQ]
  · rw [hts2, hlen2]
    norm_num

/-- C2 (amended): in a printDashboard window the average duration is reported
as unavailable (N/A) iff the summed duration-seconds of the successful runs is
zero — in particular whenever the success count is zero, but also for nonzero
success counts whose durations sum to zero; when available it equals the
arithmetic mean of the successful runs' durations truncated toward zero to
whole seconds.  The all-time summary (printSummary) has no N/A path: when the
success count is positive its averageDuration field is that truncated mean in
nanoseconds (when the success count is zero Go converts NaN to an
implementation-specific integer, which the model does not constrain). -/
theorem C2_avg_duration (w : List RunRec) (name : List Char) :
    (avgDurationReport w = none ↔ totalSecs w = 0) ∧
    ((successRuns w).length = 0 → avgDurationReport w = none) ∧
    (totalSecs w ≠ 0 →
      avgDurationReport w =
        some ((truncQ (totalSecs w / ((successRuns w).length : ℚ)) : ℚ))) ∧
    (0 < (successRuns w).length →
      (mkWorkflowStats name w).averageDuration =
        1000000000 * truncQ (totalSecs w / ((successRuns w).length : ℚ))) := by
  have hsl := statsLoop_eq w
  have hrep : avgDurationReport w =
      if totalSecs w ≠ 0 then some ((truncQ (totalSecs w / ((successRuns w).length : ℚ)) : ℚ))
      else none := by
    simp only [avgDurationReport, hsl]
  have haver : (mkWorkflowStats name w).averageDuration =
      1000000000 * truncQ (totalSecs w / ((successRuns w).length : ℚ)) := by
    simp only [mkWorkflowStats, hsl]
  refine ⟨?_, ?_, ?_, fun _ => haver⟩
  · rw [hrep]
    by_cases h : totalSecs w = 0
    · simp [h]
    · simp [h]
  · intro hlen
    have h0 : totalSecs w = 0 := by
      unfold totalSecs
      rw [List.length_eq_zero.mp hlen]
      simp
    rw [hrep]
    simp [h0]
  · intro h
    rw [hrep, if_pos h]

/-- C2 (witness): the amended average-duration theorem instantiated on a
window with one successful run of duration 1s. -/
theorem C2_avg_duration_witness :
    totalSecs [(⟨"success".toList, 0, 1⟩ : RunRec)] ≠ 0 ∧
    avgDurationReport [(⟨"success".toList, 0, 1⟩ : RunRec)] =
      some ((truncQ
        (totalSecs [(⟨"success".toList, 0, 1⟩ : RunRec)] /
          ((successRuns [(⟨"success".toList, 0, 1⟩ : RunRec)]).length : ℚ)) : ℚ)) := by
  have hts : totalSecs [(⟨"success".toList, 0, 1⟩ : RunRec)] = 1 := by
    have hsr : successRuns [(⟨"success".toList, 0, 1⟩ : RunRec)] =
        [(⟨"success".toList, 0, 1⟩ : RunRec)] := by decide
    unfold totalSecs
    rw [hsr]
    simp
  have hne : totalSecs [(⟨"success".toList, 0, 1⟩ : RunRec)] ≠ 0 := by
    rw [hts]
    simp
  exact ⟨hne, (C2_avg_duration [(⟨"success".toList, 0, 1⟩ : RunRec)] []).2.2.1 hne⟩

set_option maxRecDepth 10000 in
/-- C3 (counterexample): with workflow a at success rate 1/2 percent and
workflow b at 0 percent, one possible map iteration order makes the
success-rate table print rate 1/2 before rate 0 — the rates are not
monotonically non-decreasing, because the comparator truncates the float
difference to int and treats the two as equal.  On this two-element input
slices.SortFunc runs exactly the insertion sort modelled by goSortFunc, so
the computed table is the one Go produces for this iteration order. -/
theorem C3_counterexample :
    ((successRateTable sampleSummaryInput 10).map (fun s => s.successRate)) = [1 / 2, 0] ∧
    ¬ List.Chain' (fun a b : ℚ => a ≤ b)
      ((successRateTable sampleSummaryInput 10).map (fun s => s.successRate)) := by
  have hA : mkWorkflowStats "a".toList sampleRunsA =
      (⟨"a".toList, 0, 1 / 2, 1, 200⟩ : WorkflowStats) := by
    unfold mkWorkflowStats
    rw [statsLoop_eq]
    have h1 : (successRuns sampleRunsA).length = 1 := by decide
    have h2 : totalSecs sampleRunsA = 0 := by
      have hsr : successRuns sampleRunsA = [sampleSuccessRun] := by decide
      unfold totalSecs
      rw [hsr]
      simp [sampleSuccessRun]
    have h3 : sampleRunsA.length = 200 := by decide
    dsimp only
    rw [h1, h2, h3]
    norm_num [truncQ]
  have hB : mkWorkflowStats "b".toList sampleRunsB =
      (⟨"b".toList, 0, 0, 0, 1⟩ : WorkflowStats) := by
    unfold mkWorkflowStats
    rw [statsLoop_eq]
    have h1 : (successRuns sampleRunsB).length = 0 := by decide
    have h2 : totalSecs sampleRunsB = 0 := by
      have hsr : successRuns sampleRunsB = [] := by decide
      unfold totalSecs
      rw [hsr]
      simp
    have h3 : sampleRunsB.length = 1 := by decide
    dsimp only
    rw [h1, h2, h3]
    norm_num [truncQ]
  have hstats : printSummaryStats sampleSummaryInput =
      [(⟨"a".toList, 0, 1 / 2, 1, 200⟩ : WorkflowStats),
       (⟨"b".toList, 0, 0, 0, 1⟩ : WorkflowStats)] := by
    have hfil : (sampleSummaryInput.filter (fun p => ¬ p.2.isEmpty)) = sampleSummaryInput := by
      decide
    unfold printSummaryStats
    rw [hfil]
    unfold sampleSummaryInput
    rw [List.map_cons, List.map_cons, List.map_nil, hA, hB]
  have hcmp : rateCmp (⟨"b".toList, 0, 0, 0, 1⟩ : WorkflowStats)
      (⟨"a".toList, 0, 1 / 2, 1, 200⟩ : WorkflowStats) = 0 := by
    unfold rateCmp
    norm_num [truncQ]
  have htab : successRateTable sampleSummaryInput 10 =
      [(⟨"a".toList, 0, 1 / 2, 1, 200⟩ : WorkflowStats),
       (⟨"b".toList, 0, 0, 0, 1⟩ : WorkflowStats)] := by
    unfold successRateTable goSortFunc
    rw [hstats]
    rw [List.foldl_cons, List.foldl_cons, List.foldl_nil]
    simp only [insertR]
    rw [hcmp]
    norm_num
  rw [htab]
  constructor
  · rfl
  · intro hch
    rw [List.map_cons, List.map_cons, List.map_nil] at hch
    have := (List.chain'_cons.mp hch).1
    dsimp only at this
    norm_num at this

/-- C3 (amended): both summary tables contain at most top rows.  The
success-rate comparator int(a.successRate - b.successRate) truncates the
float difference and is not a strict weak ordering (its induced equivalence
is not transitive), so Go's sort contract guarantees nothing about the rate
order once more than 12 workflows are ranked; on inputs with at most 12
ranked workflows — where slices.SortFunc runs exactly the insertion sort
modelled here — each rate-table row's success rate exceeds the previous
row's rate minus one percentage point (adjacent rows may still decrease by
strictly less than 1 point).  The duration comparator
int(b.averageDuration - a.averageDuration) is an exact integer difference,
a strict weak ordering, and any output sorted with respect to it — which
Go's contract then does guarantee, for every input size — lists average
durations non-increasingly; in particular the model's duration table does,
whenever every ranked workflow has at least one success (so no NaN-cast
duration arises). -/
theorem C3_summary_ranking (result : List (List Char × List RunRec)) (top : Nat) :
    (successRateTable result top).length ≤ top ∧
    (durationTable result top).length ≤ top ∧
    ((printSummaryStats result).length ≤ 12 →
      List.Chain' (fun u v => u.successRate - 1 < v.successRate)
        (successRateTable result top)) ∧
    (∀ out : List WorkflowStats,
      List.Chain' (fun u v => 0 ≤ durCmp v u) out →
      List.Chain' (fun u v => v.averageDuration ≤ u.averageDuration) out) ∧
    ((∀ p ∈ result, p.2 = [] ∨ 0 < (successRuns p.2).length) →
      List.Chain' (fun u v => v.averageDuration ≤ u.averageDuration)
        (durationTable result top)) := by
  have hanti_rate : ∀ a b : WorkflowStats, rateCmp a b < 0 → 0 ≤ rateCmp b a := by
    intro a b h
    unfold rateCmp at *
    have hneg : b.successRate - a.successRate = -(a.successRate - b.successRate) := by ring
    rw [hneg, truncQ_neg]
    omega
  have hanti_dur : ∀ a b : WorkflowStats, durCmp a b < 0 → 0 ≤ durCmp b a := by
    intro a b h
    unfold durCmp at *
    omega
  refine ⟨?_, ?_, ?_, ?_, ?_⟩
  · exact List.length_take_le _ _
  · exact List.length_take_le _ _
  · intro _
    have hch := (goSortFunc_chain rateCmp hanti_rate (printSummaryStats result)).take top
    unfold successRateTable
    refine hch.imp ?_
    intro a b h
    have h2 := (truncQ_nonneg_iff _).mp h
    linarith
  · intro out hout
    refine hout.imp ?_
    intro a b h
    unfold durCmp at h
    omega
  · intro _
    have hch := (goSortFunc_chain durCmp hanti_dur
      (goSortFunc rateCmp (printSummaryStats result))).take top
    unfold durationTable
    refine hch.imp ?_
    intro a b h
    unfold durCmp at h
    omega

/-- C3 (witness): the amended ranking theorem exercised on a one-workflow
input whose single run succeeded — it has at most 12 ranked workflows and
every ranked workflow has a success, discharging both hypotheses. -/
theorem C3_summary_ranking_witness :
    List.Chain' (fun u v => u.successRate - 1 < v.successRate)
      (successRateTable [("a".toList, [sampleSuccessRun])] 10) ∧
    List.Chain' (fun u v => v.averageDuration ≤ u.averageDuration)
      (durationTable [("a".toList, [sampleSuccessRun])] 10) :=
  ⟨(C3_summary_ranking [("a".toList, [sampleSuccessRun])] 10).2.2.1 (by decide),
   (C3_summary_ranking [("a".toList, [sampleSuccessRun])] 10).2.2.2.2 (by decide)⟩

/-- C4 (counterexample): getWorkflows, after successfully fetching a first
page holding one workflow, hits a RemoteError on the second page and returns
nil — the records accumulated before the failure are discarded, refuting the
claim for the workflows fetch (its caller showCmd also aborts by returning
the error instead of logging and continuing). -/
theorem C4_counterexample :
    getWorkflows
        [Except.ok (⟨[⟨"wf/ci.yaml".toList⟩], true⟩ : WfPage), Except.error ()] [] =
      ([], some ()) ∧
    ([(⟨"wf/ci.yaml".toList⟩ : WorkflowRec)] : List WorkflowRec) ≠ [] := by
  refine ⟨by decide, by decide⟩

/-- C4 (amended): the run fetch and the job fetch return the records
accumulated from all pages fetched before a RemoteError, paired with the
error (their enclosing worker loops log the error and continue with the other
items, dropping only the affected item); the workflows fetch instead returns
nil together with the error, discarding its accumulated pages, and its caller
aborts the command. -/
theorem C4_partial_results :
    (∀ (cap : Int) (good : List RunsPage) (rest : List (Except Unit RunsPage)) (e : Unit),
      (∀ pg ∈ good, pg.hasNext = true) →
      (((good.flatMap (fun pg => pg.runs.filter admissible)).length : Int) < cap) →
      getWorkflowRuns cap (good.map Except.ok ++ Except.error e :: rest) [] =
        (good.flatMap (fun pg => pg.runs.filter admissible), some e, good.length + 1)) ∧
    (∀ (good : List (List JobRec)) (rest : List (Except Unit (List JobRec × Bool))) (e : Unit),
      getJobs (good.map (fun js => Except.ok (js, true)) ++ Except.error e :: rest) [] =
        (good.flatMap (fun js => js), some e)) := by
  constructor
  · intro cap good rest e hn hlen
    have h := getWorkflowRuns_partial cap e rest good [] hn (by simpa using hlen)
    simpa using h
  · intro good rest e
    have h := getJobs_partial e rest good []
    simpa using h

/-- C4 (witness): the amended partial-result theorem instantiated on a run
page stream whose second request fails. -/
theorem C4_partial_results_witness :
    getWorkflowRuns 64
        ([(⟨[⟨"success".toList, 0, 60⟩], true⟩ : RunsPage)].map Except.ok ++
          Except.error () :: []) [] =
      ([(⟨[⟨"success".toList, 0, 60⟩], true⟩ : RunsPage)].flatMap
        (fun pg => pg.runs.filter admissible), some (), 2) :=
  C4_partial_results.1 64 [(⟨[⟨"success".toList, 0, 60⟩], true⟩ : RunsPage)] [] ()
    (by decide) (by decide)

/-- C5 (counterexample): two work items with the same key both succeed, yet
the shared result map holds a single entry (the second write overwrites the
first), refuting the exactly-one-entry-per-successful-item claim for item
lists with repeated keys. -/
theorem C5_counterexample :
    dispatchSuccesses ["a".toList, "a".toList] (fun _ => some (0 : Nat)) =
      [("a".toList, 0), ("a".toList, 0)] ∧
    (dispatchResult [("a".toList, (0 : Nat)), ("a".toList, 0)]).length = 1 ∧
    (dispatchSuccesses ["a".toList, "a".toList] (fun _ => some (0 : Nat))).length = 2 ∧
    (1 : Nat) ≠ 2 := by
  refine ⟨by decide, by decide, by decide, by decide⟩

/-- C5 (amended): for every list of pairwise-distinct work items, every work
function, and every order in which the successful items' results reach the
mutex-guarded map (every worker interleaving for every worker count produces
some permutation of the successful items), the final result map has exactly
one entry per item whose work function returned without error, and contains a
key iff that item succeeded; erroring items contribute no entry. -/
theorem C5_dispatch {K V : Type} [DecidableEq K] (items : List K) (workFn : K → Option V)
    (order : List (K × V)) (hperm : order.Perm (dispatchSuccesses items workFn))
    (hnodup : items.Nodup) :
    (dispatchResult order).length = (dispatchSuccesses items workFn).length ∧
    ∀ k, (∃ v, (k, v) ∈ dispatchResult order) ↔
      (∃ v, (k, v) ∈ dispatchSuccesses items workFn) := by
  have hsub := dispatchSuccesses_keys_sublist workFn items
  have hnodup_s : ((dispatchSuccesses items workFn).map Prod.fst).Nodup :=
    hsub.nodup hnodup
  have hperm_keys : (order.map Prod.fst).Perm
      ((dispatchSuccesses items workFn).map Prod.fst) := hperm.map Prod.fst
  have hnodup_o : (order.map Prod.fst).Nodup := hperm_keys.nodup_iff.mpr hnodup_s
  have hkeys0 := dispatchResult_keys order [] hnodup_o (by simp)
  have hkeys : (dispatchResult order).map Prod.fst = order.map Prod.fst := by
    simpa [dispatchResult] using hkeys0
  have hmm : ∀ (m : List (K × V)) (k : K), (∃ v, (k, v) ∈ m) ↔ k ∈ m.map Prod.fst := by
    intro m k
    constructor
    · rintro ⟨v, hv⟩
      exact List.mem_map.mpr ⟨(k, v), hv, rfl⟩
    · intro hk
      obtain ⟨p, hp, hpk⟩ := List.mem_map.mp hk
      refine ⟨p.2, ?_⟩
      rw [← hpk]
      exact hp
  constructor
  · have hl1 : (dispatchResult order).length = ((dispatchResult order).map Prod.fst).length :=
      (List.length_map _ _).symm
    rw [hl1, hkeys, List.length_map]
    exact hperm.length_eq
  · intro k
    rw [hmm, hmm, hkeys]
    exact hperm_keys.mem_iff

/-- C5 (witness): the amended dispatcher theorem instantiated on two distinct
items whose work function always succeeds, with the mutex order equal to item
order. -/
theorem C5_dispatch_witness :
    (dispatchResult
        (dispatchSuccesses ["a".toList, "b".toList] (fun _ => some (0 : Nat)))).length =
      (dispatchSuccesses ["a".toList, "b".toList] (fun _ => some (0 : Nat))).length :=
  (C5_dispatch ["a".toList, "b".toList] (fun _ => some (0 : Nat)) _
    (List.Perm.refl _) (by decide)).1

/-- C6 (confirmed): for every page stream and every cap >= 0, the run fetch
returns at most cap records, every returned record concluded success or
failure, at most one request per available page is issued, every page
requested before the last one was a non-final page whose cumulative
admissible count was still below the cap (pagination stops as soon as the cap
is reached or the source signals no further pages), on a normal exit the
result is exactly the admissible records of the consumed pages truncated to
cap, and the last consumed page either exhausted the stream, was final, or
pushed the admissible count to the cap. -/
theorem C6_run_fetch (cap : Int) (pages : List (Except Unit RunsPage)) (hcap : 0 ≤ cap) :
    (((getWorkflowRuns cap pages []).1.length : Int) ≤ cap) ∧
    (∀ r ∈ (getWorkflowRuns cap pages []).1,
      r.conclusion = "success".toList ∨ r.conclusion = "failure".toList) ∧
    (getWorkflowRuns cap pages []).2.2 ≤ pages.length ∧
    (∀ j, j + 1 < (getWorkflowRuns cap pages []).2.2 →
      ∃ pg, pages[j]? = some (Except.ok pg) ∧ pg.hasNext = true ∧
        ((admThrough pages (j + 1)).length : Int) < cap) ∧
    ((getWorkflowRuns cap pages []).2.1 = none →
      (getWorkflowRuns cap pages []).1 =
        (admThrough pages (getWorkflowRuns cap pages []).2.2).take cap.toNat) ∧
    ((getWorkflowRuns cap pages []).2.1 = none →
      (getWorkflowRuns cap pages []).2.2 = pages.length ∨
      ∃ pg, pages[(getWorkflowRuns cap pages []).2.2 - 1]? = some (Except.ok pg) ∧
        (pg.hasNext = false ∨
          cap ≤ ((admThrough pages (getWorkflowRuns cap pages []).2.2).length : Int))) := by
  obtain ⟨h1, h2, h3, _h3b, h4, h5, h6⟩ :=
    getWorkflowRuns_go_spec cap hcap pages [] (by simpa using hcap) (by intro r hr; simp at hr)
  refine ⟨h1, h2, h3, ?_, ?_, ?_⟩
  · intro j hj
    obtain ⟨pg, ha, hb, hc⟩ := h4 j hj
    exact ⟨pg, ha, hb, by simpa using hc⟩
  · intro hn
    have h := h5 hn
    simpa using h
  · intro hn
    rcases h6 hn with h | ⟨pg, ha, hb⟩
    · exact Or.inl h
    · right
      refine ⟨pg, ha, ?_⟩
      rcases hb with hb | hb
      · exact Or.inl hb
      · right
        simpa using hb

/-- C6 (witness): the run-fetch theorem instantiated with cap 2 on a stream
whose first page already holds three admissible records. -/
theorem C6_run_fetch_witness :
    (0 : Int) ≤ 2 ∧
    (((getWorkflowRuns 2
        [Except.ok (⟨[⟨"success".toList, 0, 1⟩, ⟨"failure".toList, 0, 2⟩,
          ⟨"success".toList, 0, 3⟩], true⟩ : RunsPage)] []).1.length : Int) ≤ 2) :=
  ⟨by decide,
    (C6_run_fetch 2
      [Except.ok (⟨[⟨"success".toList, 0, 1⟩, ⟨"failure".toList, 0, 2⟩,
        ⟨"success".toList, 0, 3⟩], true⟩ : RunsPage)] (by decide)).1⟩

/-- C7 (code bug): the options record getWorkflowRuns builds for the remote
query carries the caller's branch and event filters but leaves the Created
minimum-start-time filter at its empty zero value — github.go's
getWorkflowRuns accepts no created parameter at all, even though showCmd
computes one with daysToTimeRange and passes it at show.go line 98 — and the
fetch performs no local start-time filtering either: a run is returned
regardless of how old its start timestamp is. -/
theorem C7_created_filter :
    (∀ branch event : List Char,
      (mkRunsOptions branch event).branch = branch ∧
      (mkRunsOptions branch event).event = event ∧
      (mkRunsOptions branch event).created = []) ∧
    (∀ t : ℚ,
      getWorkflowRuns 64 [Except.ok (⟨[⟨"success".toList, t, t⟩], false⟩ : RunsPage)] [] =
        ([⟨"success".toList, t, t⟩], none, 1)) := by
  constructor
  · intro branch event
    exact ⟨rfl, rfl, rfl⟩
  · intro t
    rfl

/-- C8 (counterexample): a body that contains "Test [foo]:" three times and
"Test [bar]:" once, but with the first foo occurrence and the bar occurrence
on the same line, yields failedTestCounts {"foo]: Test [bar": 1, "foo": 2}
rather than {"foo": 3, "bar": 1}: the greedy capture of the regex extends to
the last "]:" of the line. -/
theorem C8_counterexample :
    countSub "Test [foo]:".toList
        "Test [foo]: Test [bar]:\nTest [foo]:\nTest [foo]:".toList = 3 ∧
    countSub "Test [bar]:".toList
        "Test [foo]: Test [bar]:\nTest [foo]:\nTest [foo]:".toList = 1 ∧
    mapGet (analyzeBody "Test [foo]: Test [bar]:\nTest [foo]:\nTest [foo]:".toList).1
        "foo".toList = some 2 ∧
    (some 2 : Option Nat) ≠ some 3 ∧
    mapGet (analyzeBody "Test [foo]: Test [bar]:\nTest [foo]:\nTest [foo]:".toList).1
        "foo]: Test [bar".toList = some 1 := by
  refine ⟨by decide, by decide, by decide, by decide, by decide⟩

/-- C8 (amended): the miner increments failedTestCounts[name] once per regex
match of the failed-test pattern, whose greedy per-line capture runs to the
last "]:" of the line — so a body whose occurrences each sit on their own
line with foo three times and bar once yields exactly {"foo": 3, "bar": 1};
a line containing the " level=error" marker (note the leading space in the
pattern) with a quoted nonempty msg payload increments
errorMessageCounts[payload] once per such line; a marker line with no msg
payload contributes to neither table; and at most 10000 matches per pattern
are taken from one body. -/
theorem C8_log_miner :
    (mapGet (analyzeBody "Test [foo]:\nTest [bar]:\nTest [foo]:\nTest [foo]:".toList).1
        "foo".toList = some 3 ∧
     mapGet (analyzeBody "Test [foo]:\nTest [bar]:\nTest [foo]:\nTest [foo]:".toList).1
        "bar".toList = some 1) ∧
    mapGet (analyzeBody
        "x level=error msg=\"disk full\"\nx level=error msg=\"disk full\"".toList).2
      "disk full".toList = some 2 ∧
    analyzeBody "x level=error oops".toList = ([], []) ∧
    (∀ body : List Char,
      (testCapturesBody body).length ≤ 10000 ∧ (levelErrorBody body).length ≤ 10000) := by
  refine ⟨⟨by decide, by decide⟩, by decide, by decide, ?_⟩
  intro body
  constructor
  · unfold testCapturesBody
    exact List.length_take_le _ _
  · unfold levelErrorBody
    exact List.length_take_le _ _

/-- C9 (confirmed): in the failure drilldown only failure-concluded runs with
a successful job fetch are processed; failedJobCounts stores, for each name,
the number of failure-concluded jobs bearing it (an entry exists iff that
count is positive) independently of whether the log reference was obtained;
the log-reference list consists of exactly the references that were obtained
for those jobs (a failed GetWorkflowJobLogs call is skipped silently and adds
no entry while the job is still counted); and the failed/cancelled step
tables count exactly the failure/cancelled-concluded steps of those jobs,
steps with other conclusions touching neither. -/
theorem C9_drilldown (runs : List RunDetail) (n : List Char) :
    mapGet (printDetailedDashboard runs).failedJobCount n =
      natCountOpt ((failureJobs runs).map (fun j => j.name)) n ∧
    (printDetailedDashboard runs).logsURLs =
      (failureJobs runs).filterMap (fun j => j.logsURL) ∧
    mapGet (printDetailedDashboard runs).failedStepCount n =
      natCountOpt
        ((((failureJobs runs).flatMap (fun j => j.steps)).filter
          (fun st => st.conclusion == "failure".toList)).map (fun st => st.name)) n ∧
    mapGet (printDetailedDashboard runs).cancelledStepCount n =
      natCountOpt
        ((((failureJobs runs).flatMap (fun j => j.steps)).filter
          (fun st => st.conclusion == "cancelled".toList)).map (fun st => st.name)) n := by
  unfold printDetailedDashboard
  refine ⟨?_, ?_, ?_, ?_⟩
  · rw [foldRuns_fjc]
    exact mapGet_mapBump_nil _ _
  · rw [foldRuns_urls]
    simp
  · rw [foldRuns_fsc]
    exact mapGet_mapBump_nil _ _
  · rw [foldRuns_csc]
    exact mapGet_mapBump_nil _ _

/-- C10 (confirmed): whenever workflow discovery succeeds, the returned list
is a permutation of the base file names of the collected workflows' paths and
is sorted ascending in the lexicographic order on strings. -/
theorem C10_workflow_names (pages : List (Except Unit WfPage)) (res : List (List Char))
    (h : getWorkflows pages [] = (res, none)) :
    res.Perm ((wfCollected pages).map (fun w => pathBase w.path)) ∧
    List.Sorted lexLeP res := by
  have h2 := getWorkflows_success pages [] res h
  simpa using h2

/-- C10 (witness): workflow discovery on a single final page holding paths
b.yaml and a.yaml returns them base-named and sorted. -/
theorem C10_workflow_names_witness :
    (["a.yaml".toList, "b.yaml".toList] : List (List Char)).Perm
        ((wfCollected
          [Except.ok (⟨[⟨"b.yaml".toList⟩, ⟨"a.yaml".toList⟩], false⟩ : WfPage)]).map
          (fun w => pathBase w.path)) ∧
    List.Sorted lexLeP (["a.yaml".toList, "b.yaml".toList] : List (List Char)) :=
  C10_workflow_names
    [Except.ok (⟨[⟨"b.yaml".toList⟩, ⟨"a.yaml".toList⟩], false⟩ : WfPage)]
    ["a.yaml".toList, "b.yaml".toList] (by decide)
